import Mathlib

/-!
Verification of the Humanizer service (`app.py`).

The development embeds, as executable Lean functions:
* the post-processing substitutions of `humanize_text_with_deepseek`
  (lines 149-152): a faithful model of Python `re.sub` for the four
  concrete patterns used there, scanning left to right over the original
  string with `\b` word boundaries;
* Python `str.strip()` on ASCII whitespace (`pyStrip`);
* the `/humanize` request handler (`humanize`), including JSON-body
  truthiness, validation, the md5-keyed response cache with its
  FIFO eviction (the md5 digest itself is an opaque parameter: the
  handler only uses it as a deterministic `String → String` function),
  and the provider call modelled as `llm : String → Except String String`
  (`.error m` is a raised exception whose `str(e)` is `m`).

The cache is the Python dict `response_cache`: an insertion-ordered
association list; `d[k] = v` appends fresh keys at the tail, and
`del d[next(iter(d))]` removes the head.
-/

namespace Humanizer

/-- Python regex `\w` on ASCII: letters, digits, underscore. -/
def wordChar (c : Char) : Bool := c.isAlphanum || c = '_'

/-- ASCII whitespace stripped by Python `str.strip()`. -/
def wsChar (c : Char) : Bool :=
  c = ' ' || c = '\t' || c = '\n' || c = '\r' || c = '\x0b' || c = '\x0c'

/-- A `\b` word boundary holds between a word character and this list:
the list is empty or starts with a non-word character. -/
def boundaryOk (l : List Char) : Bool :=
  match l with
  | [] => true
  | c :: _ => !wordChar c

/-- `matchesW p l`: the literal pattern `p` (all of whose characters are
fixed) matches at the front of `l`, followed by a `\b` word boundary.
This is `re.match(p + r'\b', l)` for the patterns of `app.py`, all of
which end in a word character. -/
def matchesW (p l : List Char) : Bool :=
  decide (l.take p.length = p) && boundaryOk (l.drop p.length)

/-- One pass of `re.sub` over `l` for an alternation `pats` of literal
patterns of common length `n + 1`, replacing each match by `repl` and
continuing after the matched span, as `re.sub` does.

* `needB` – whether the pattern begins with `\b` (true for
  `\b[Mm]eanwhile\b` and `\b[Ff]lashpoint\b`, false for
  `which makes it\b`); all patterns start with a word character, so the
  leading `\b` holds exactly when the previous character is absent or
  non-word, which is what the running flag `atB` records.
* after a match the scan resumes right after the matched span; every
  pattern of `app.py` ends in a word character, so the boundary flag
  there is `false`. -/
def subScan (needB : Bool) (pats : List (List Char)) (n : Nat) (repl : List Char) :
    Bool → List Char → List Char
  | _, [] => []
  | atB, c :: rest =>
    if (atB || !needB) && pats.any (fun p => matchesW p (c :: rest)) then
      repl ++ subScan needB pats n repl false (rest.drop n)
    else
      c :: subScan needB pats n repl (!wordChar c) rest
termination_by _ l => l.length
decreasing_by
  · simp only [List.length_drop, List.length_cons]; omega
  · simp

/-- Structural (fuel-free) implementation of `subScan`: the `Nat` state
counts characters still to be skipped after a match.  Used so that the
kernel can evaluate the post-processor on concrete strings. -/
def subScanC (needB : Bool) (pats : List (List Char)) (n : Nat) (repl : List Char) :
    Nat → Bool → List Char → List Char
  | _, _, [] => []
  | k + 1, _, _ :: rest => subScanC needB pats n repl k false rest
  | 0, atB, c :: rest =>
    if (atB || !needB) && pats.any (fun p => matchesW p (c :: rest)) then
      repl ++ subScanC needB pats n repl n false rest
    else
      c :: subScanC needB pats n repl 0 (!wordChar c) rest

/-- Scanner for the presence of a match: `hasOccScan needB pats atB l` is
true iff some position of `l` matches one of `pats` followed by `\b`,
with a leading `\b` additionally required when `needB` is true. -/
def hasOccScan (needB : Bool) (pats : List (List Char)) : Bool → List Char → Bool
  | _, [] => false
  | atB, c :: rest =>
    ((atB || !needB) && pats.any (fun p => matchesW p (c :: rest))) ||
      hasOccScan needB pats (!wordChar c) rest

/-- Case-insensitive variant of `matchesW`: the pattern `p` is given in
lower case and the scanned text is lowered before comparison. -/
def matchesWCI (p l : List Char) : Bool :=
  decide ((l.take p.length).map Char.toLower = p) && boundaryOk (l.drop p.length)

/-- `l` contains a standalone (word-boundary-delimited) case-insensitive
occurrence of the lower-case word `p`. -/
def hasOccCI (p : List Char) : Bool → List Char → Bool
  | _, [] => false
  | atB, c :: rest =>
    (atB && matchesWCI p (c :: rest)) || hasOccCI p (!wordChar c) rest

/-- `l` contains `p` as a contiguous substring. -/
def containsSub (p : List Char) : List Char → Bool
  | [] => decide (p = ([] : List Char))
  | c :: rest => decide ((c :: rest).take p.length = p) || containsSub p rest

/-! ### The four substitutions of `humanize_text_with_deepseek` -/

/-- Line 149: `re.sub(r'[—–]', '-', text)` — em/en dashes become hyphens. -/
def dashSub (l : List Char) : List Char :=
  l.map (fun c => if c = '—' || c = '–' then '-' else c)

def mwPats : List (List Char) := ["Meanwhile".data, "meanwhile".data]
def mwRepl : List Char := "At the same time".data

/-- Line 150: `re.sub(r'\b[Mm]eanwhile\b', 'At the same time', text)`. -/
def mwSub (l : List Char) : List Char := subScan true mwPats 8 mwRepl true l

def fpPats : List (List Char) := ["Flashpoint".data, "flashpoint".data]
def fpRepl : List Char := "critical point".data

/-- Line 151: `re.sub(r'\b[Ff]lashpoint\b', 'critical point', text)`. -/
def fpSub (l : List Char) : List Char := subScan true fpPats 9 fpRepl true l

def wmiPats : List (List Char) := ["which makes it".data]
def wmiRepl : List Char := "so it\'s".data

/-- Line 152: `re.sub(r'which makes it\b', "so it's", text)` — note
there is no `\b` before the pattern. -/
def wmiSub (l : List Char) : List Char := subScan false wmiPats 13 wmiRepl true l

/-- The post-processing block of lines 149-152, in source order. -/
def postProcessL (l : List Char) : List Char :=
  wmiSub (fpSub (mwSub (dashSub l)))

/-- The post-processor as a function on strings. -/
def postProcess (s : String) : String := ⟨postProcessL s.data⟩

/-! ### Python `str.strip()` -/

/-- Drop leading, then trailing, ASCII whitespace. -/
def pyStripL (l : List Char) : List Char :=
  ((l.dropWhile wsChar).reverse.dropWhile wsChar).reverse

def pyStrip (s : String) : String := ⟨pyStripL s.data⟩

/-! ### JSON bodies and the `/humanize` handler -/

/-- Parsed JSON values, as delivered by `request.get_json()`. -/
inductive JVal where
  | jnull : JVal
  | jbool : Bool → JVal
  | jnum : Int → JVal
  | jstr : String → JVal
  | jarr : List JVal → JVal
  | jobj : List (String × JVal) → JVal
deriving Repr

/-- Python truthiness of a parsed JSON value (the `if not data:` test
on line 183). -/
def truthy : JVal → Bool
  | .jnull => false
  | .jbool b => b
  | .jnum n => decide (n ≠ 0)
  | .jstr s => decide (s ≠ "")
  | .jarr l => !l.isEmpty
  | .jobj f => !f.isEmpty

/-- `data.get('text', '')` followed by `.strip()`'s attribute demands:
on a dict, the `text` field (default `''`) must be a string — any other
value makes `.strip()` raise; on a non-dict truthy value `.get` itself
raises.  Raised exceptions are `.error`. -/
def getText : JVal → Except String String
  | .jobj fields =>
    match fields.lookup "text" with
    | none => .ok ""
    | some (.jstr s) => .ok s
    | some _ => .error "AttributeError: strip"
  | _ => .error "AttributeError: get"

/-- The JSON payload of a `/humanize` response (the deterministic
fields; `processing_time` is wall-clock and not modelled). -/
structure HResp where
  status : Nat
  success : Bool
  error : Option String := none
  humanized_text : Option String := none
  original_length : Option Nat := none
  humanized_length : Option Nat := none
  cached : Option Bool := none
deriving Repr, DecidableEq

def jsonErrResp : HResp := { status := 400, success := false, error := some "No JSON data provided" }
def textErrResp : HResp := { status := 400, success := false, error := some "No text provided" }
def lenErrResp : HResp :=
  { status := 400, success := false, error := some "Text too long. Maximum 10,000 characters allowed." }

/-- `response_cache[key] = value` (line 218): overwrite in place if the
key is present, else append at the tail (Python dict semantics). -/
def cacheBody (c : List (String × String)) (k v : String) : List (String × String) :=
  if (c.lookup k).isSome then c.map (fun p => if p.1 = k then (k, v) else p)
  else c ++ [(k, v)]

/-- The assignment of line 218 followed by the cleanup of lines 220-223:
if the dict exceeds 100 entries, delete the first-inserted key
(`next(iter(...))` = head). -/
def cacheInsert (c : List (String × String)) (k v : String) : List (String × String) :=
  if 100 < (cacheBody c k v).length then (cacheBody c k v).tail else cacheBody c k v

/-- `humanize_text_with_deepseek` (lines 27-158): an opaque provider
call `llm` whose successful reply is stripped and post-processed; any
exception propagates. -/
def humanize_text_with_deepseek (llm : String → Except String String) (ai_text : String) :
    Except String String :=
  (llm ai_text).map (fun raw => postProcess (pyStrip raw))

/-- The cache-consulting tail of the handler (lines 205-234), reached
with the validated, stripped text.  Returns the response, the new cache,
and the number of provider invocations. -/
def humanizeValid (md5 : String → String) (llm : String → Except String String)
    (ai_text : String) (cache : List (String × String)) :
    HResp × List (String × String) × Nat :=
  match cache.lookup (md5 ai_text) with
  | some v =>
    ({ status := 200, success := true, humanized_text := some v,
       original_length := some ai_text.length, humanized_length := some v.length,
       cached := some (cache.lookup (md5 ai_text)).isSome }, cache, 0)
  | none =>
    match humanize_text_with_deepseek llm ai_text with
    | .error m => ({ status := 500, success := false, error := some m }, cache, 1)
    | .ok v =>
      ({ status := 200, success := true, humanized_text := some v,
         original_length := some ai_text.length, humanized_length := some v.length,
         cached := some ((cacheInsert cache (md5 ai_text) v).lookup (md5 ai_text)).isSome },
       cacheInsert cache (md5 ai_text) v, 1)

/-- The `/humanize` handler (lines 174-244).  `body` is the result of
`request.get_json()` (`none` for a missing or unparseable JSON body). -/
def humanize (md5 : String → String) (llm : String → Except String String)
    (body : Option JVal) (cache : List (String × String)) :
    HResp × List (String × String) × Nat :=
  match body with
  | none => (jsonErrResp, cache, 0)
  | some data =>
    if truthy data then
      match getText data with
      | .error m => ({ status := 500, success := false, error := some m }, cache, 0)
      | .ok s =>
        if pyStrip s = "" then (textErrResp, cache, 0)
        else if 10000 < (pyStrip s).length then (lenErrResp, cache, 0)
        else humanizeValid md5 llm (pyStrip s) cache
    else (jsonErrResp, cache, 0)

/-- A sequence of `/humanize` requests, each submitting one text. -/
def runTexts (md5 : String → String) (llm : String → Except String String)
    (texts : List String) (cache : List (String × String)) : List (String × String) :=
  texts.foldl (fun c t => (humanize md5 llm (some (.jobj [("text", .jstr t)])) c).2.1) cache

/-! ### Auxiliary definitions used by the proofs -/

/-- The cache update performed on a miss with a key not yet present:
append, then evict the head if the bound is exceeded. -/
def insFresh (c : List (String × String)) (e : String × String) : List (String × String) :=
  if 100 < (c ++ [e]).length then (c ++ [e]).tail else c ++ [e]

/-- The cache entry produced by a successful fresh-key request for text
`t`: the digest of the stripped text, mapped to the post-processed
provider reply. -/
def entryOf (md5 : String → String) (llm : String → Except String String)
    (t : String) : String × String :=
  (md5 (pyStrip t),
    postProcess (pyStrip (match llm (pyStrip t) with | .ok r => r | .error _ => "")))

/-- The post-processor routed through the structural scanner
`subScanC`, so the kernel can evaluate it on concrete strings. -/
def postProcessLC (l : List Char) : List Char :=
  subScanC false wmiPats 13 wmiRepl 0 true
    (subScanC true fpPats 9 fpRepl 0 true
      (subScanC true mwPats 8 mwRepl 0 true (dashSub l)))

/-- `spanOk p z`: the literal pattern `p` (followed by `\b`) cannot match
at the front of `z ++ X` for any continuation `X` that is empty or starts
with a non-word character: either the overlapping characters already
mismatch, or the position just past the overlap demands a word character
that the continuation cannot supply. -/
def spanOk (p z : List Char) : Bool :=
  if z.length ≤ p.length then
    !decide (p.take z.length = z) ||
      (match p.drop z.length with
       | [] => false
       | c :: _ => wordChar c)
  else
    !decide (z.take p.length = p) ||
      (match z.drop p.length with
       | [] => true
       | c :: _ => wordChar c)

/-- 101 pairwise-distinct one-character texts, used to exercise the
FIFO bound. -/
def w101 : List String := (List.range 101).map (fun n => String.mk [Char.ofNat (1000 + n)])

/-- A text field of 10,001 characters whose stripped form is just `"a"`. -/
def longPad : String := ⟨'a' :: List.replicate 10000 ' '⟩

/-- Input exhibiting the post-processor behaviours the spec's claim
misses: an upper-case `MEANWHILE` and a doubled `which makes it`. -/
def ppCounterInput : String := "MEANWHILE which makes itwhich makes it"

/-- A text of 10,001 non-whitespace characters. -/
def longB : String := ⟨List.replicate 10001 'b'⟩

/-- The `\b` flag that holds right after scanning the characters of
`R`: at the start of the input it is `true`, after a character `c` it is
`!wordChar c`. -/
def lastFlag (R : List Char) : Bool :=
  match R.getLast? with
  | none => true
  | some c => !wordChar c

/-- `p` is a suffix of one of the patterns in `qs`. -/
def suffOf (qs : List (List Char)) (p : List Char) : Prop :=
  ∃ q ∈ qs, ∃ k, q.drop k = p

/-! ## Lemmas about `str.strip()` -/

theorem pyStripL_ws_all {l : List Char} (h : ∀ c ∈ l, wsChar c = true) :
    pyStripL l = [] := by
  unfold pyStripL
  rw [List.dropWhile_eq_nil_iff.mpr h]
  rfl

theorem pyStrip_ws_all {s : String} (h : ∀ c ∈ s.data, wsChar c = true) :
    pyStrip s = "" := by
  show String.mk (pyStripL s.data) = ""
  rw [pyStripL_ws_all h]

theorem pyStripL_append_ws_left {w l : List Char} (hw : ∀ c ∈ w, wsChar c = true) :
    pyStripL (w ++ l) = pyStripL l := by
  unfold pyStripL
  rw [List.dropWhile_append_of_pos hw]

theorem pyStripL_append_ws_right {l w : List Char} (hw : ∀ c ∈ w, wsChar c = true) :
    pyStripL (l ++ w) = pyStripL l := by
  unfold pyStripL
  rw [List.dropWhile_append]
  by_cases h : (l.dropWhile wsChar).isEmpty
  · rw [if_pos h]
    rw [List.isEmpty_eq_true] at h
    rw [List.dropWhile_eq_nil_iff.mpr hw, h]
  · rw [if_neg h, List.reverse_append,
      List.dropWhile_append_of_pos (fun c hc => hw c (List.mem_reverse.mp hc))]

/-- `strip` ignores whitespace padding on both sides. -/
theorem pyStrip_pad {s w1 w2 : String} (h1 : ∀ c ∈ w1.data, wsChar c = true)
    (h2 : ∀ c ∈ w2.data, wsChar c = true) :
    pyStrip (w1 ++ s ++ w2) = pyStrip s := by
  show String.mk (pyStripL (w1 ++ s ++ w2).data) = String.mk (pyStripL s.data)
  rw [String.data_append, String.data_append, List.append_assoc,
    pyStripL_append_ws_left h1, pyStripL_append_ws_right h2]

/-! ## Lemmas about the cache -/

theorem cacheInsert_fresh {c : List (String × String)} {k v : String}
    (h : c.lookup k = none) : cacheInsert c k v = insFresh c (k, v) := by
  have hb : cacheBody c k v = c ++ [(k, v)] := by
    unfold cacheBody
    rw [h]
    rfl
  unfold cacheInsert insFresh
  rw [hb]

theorem lookup_tail_of_lookup_none {c : List (String × String)} {k : String}
    (h : c.lookup k = none) : c.tail.lookup k = none := by
  rw [List.lookup_eq_none_iff] at h ⊢
  intro p hp
  exact h p (List.mem_of_mem_tail hp)

theorem lookup_insFresh_self {c : List (String × String)} {k v : String}
    (h : c.lookup k = none) : (insFresh c (k, v)).lookup k = some v := by
  unfold insFresh
  split
  · cases c with
    | nil => simp_all
    | cons p c' =>
      show ((p :: c').tail ++ [(k, v)]).lookup k = some v
      rw [List.lookup_append, lookup_tail_of_lookup_none h]
      simp
  · rw [List.lookup_append, h]
    simp

theorem lookup_insFresh_none {c : List (String × String)} {k : String}
    (e : String × String) (h : c.lookup k = none) (hk : k ≠ e.1) :
    (insFresh c e).lookup k = none := by
  have he : ([e]).lookup k = none := by
    rw [List.lookup_eq_none_iff]
    intro p hp
    rw [List.mem_singleton] at hp
    subst hp
    simpa using hk
  unfold insFresh
  split
  · cases c with
    | nil => simp_all
    | cons p c' =>
      show ((p :: c').tail ++ [e]).lookup k = none
      rw [List.lookup_append, lookup_tail_of_lookup_none h, he]
      rfl
  · rw [List.lookup_append, h, he]
    rfl

theorem insFresh_length_le {c : List (String × String)} (e : String × String)
    (h : c.length ≤ 100) : (insFresh c e).length ≤ 100 := by
  unfold insFresh
  split <;> rename_i hsp <;>
    simp only [List.length_tail, List.length_append, List.length_cons,
      List.length_nil] at hsp ⊢ <;>
    omega

theorem cacheInsert_length_le {c : List (String × String)} {k v : String}
    (h : c.length ≤ 100) : (cacheInsert c k v).length ≤ 100 := by
  have hb : (cacheBody c k v).length ≤ c.length + 1 := by
    unfold cacheBody
    split <;>
      simp only [List.length_map, List.length_append, List.length_cons, List.length_nil] <;>
      omega
  unfold cacheInsert
  split <;> rename_i hsp
  · rw [List.length_tail]
    omega
  · omega

theorem foldl_insFresh (es : List (String × String)) :
    ∀ c : List (String × String), c.length ≤ 100 →
      es.foldl insFresh c = (c ++ es).drop (c.length + es.length - 100) := by
  induction es with
  | nil =>
    intro c hc
    simp only [List.foldl_nil, List.append_nil, List.length_nil, Nat.add_zero,
      Nat.sub_eq_zero_of_le hc, List.drop_zero]
  | cons e es ih =>
    intro c hc
    show es.foldl insFresh (insFresh c e) = _
    by_cases h : 100 < (c ++ [e]).length
    · have hc100 : c.length = 100 := by
        simp only [List.length_append, List.length_cons, List.length_nil] at h
        omega
      obtain ⟨p, c', rfl⟩ : ∃ p c', c = p :: c' := by
        cases c with
        | nil => simp at hc100
        | cons p c' => exact ⟨p, c', rfl⟩
      have hc99 : c'.length = 99 := by
        simp only [List.length_cons] at hc100
        omega
      have hstep : insFresh (p :: c') e = c' ++ [e] := by
        unfold insFresh
        rw [if_pos h]
        rfl
      have hlen' : (c' ++ [e]).length ≤ 100 := by
        simp only [List.length_append, List.length_cons, List.length_nil]
        omega
      rw [hstep, ih _ hlen']
      have e1 : (c' ++ [e]).length + es.length - 100 = es.length := by
        simp only [List.length_append, List.length_cons, List.length_nil, hc99]
        omega
      have e2 : (p :: c').length + (e :: es).length - 100 = es.length + 1 := by
        simp only [List.length_cons, hc100]
        omega
      rw [e1, e2]
      have hX : (c' ++ [e]) ++ es = c' ++ e :: es := by
        rw [List.append_assoc, List.singleton_append]
      have hY : (p :: c') ++ e :: es = p :: (c' ++ e :: es) := by
        rfl
      rw [hX, hY, List.drop_succ_cons]
    · have hlen : (c ++ [e]).length ≤ 100 := by omega
      have hstep : insFresh c e = c ++ [e] := by
        unfold insFresh
        rw [if_neg h]
      rw [hstep, ih _ hlen]
      have e3 : (c ++ [e]).length + es.length - 100 = c.length + (e :: es).length - 100 := by
        simp only [List.length_append, List.length_cons, List.length_nil]
        omega
      rw [e3, List.append_assoc, List.singleton_append]

/-! ## Lemmas about the request handler -/

theorem pyStripL_no_ws {l : List Char} (h : ∀ c ∈ l, wsChar c = false) :
    pyStripL l = l := by
  unfold pyStripL
  have h1 : l.dropWhile wsChar = l := by
    cases l with
    | nil => rfl
    | cons c rest =>
      rw [List.dropWhile_cons_of_neg]
      simp [h c (by simp)]
  rw [h1]
  have h2 : l.reverse.dropWhile wsChar = l.reverse := by
    cases hr : l.reverse with
    | nil => rfl
    | cons c rest =>
      rw [List.dropWhile_cons_of_neg]
      have hm : c ∈ l := by
        rw [← List.mem_reverse, hr]
        simp
      simp [h c hm]
  rw [h2, List.reverse_reverse]

theorem humanize_text_body (md5 : String → String) (llm : String → Except String String)
    (c : List (String × String)) (s : String) :
    humanize md5 llm (some (.jobj [("text", .jstr s)])) c
      = (if pyStrip s = "" then (textErrResp, c, 0)
         else if 10000 < (pyStrip s).length then (lenErrResp, c, 0)
         else humanizeValid md5 llm (pyStrip s) c) := by
  simp [humanize, truthy, getText]

theorem humanize_valid_eq (md5 : String → String) (llm : String → Except String String)
    (data : JVal) (c : List (String × String)) (s : String)
    (ht : truthy data = true) (hg : getText data = .ok s)
    (h1 : pyStrip s ≠ "") (h2 : ¬ 10000 < (pyStrip s).length) :
    humanize md5 llm (some data) c = humanizeValid md5 llm (pyStrip s) c := by
  simp [humanize, ht, hg, h1, h2]

theorem success_cases (md5 : String → String) (llm : String → Except String String)
    (body : Option JVal) (c : List (String × String))
    (h : (humanize md5 llm body c).1.success = true) :
    ∃ data s, body = some data ∧ truthy data = true ∧ getText data = .ok s ∧
      pyStrip s ≠ "" ∧ ¬ 10000 < (pyStrip s).length ∧
      humanize md5 llm body c = humanizeValid md5 llm (pyStrip s) c := by
  cases body with
  | none => simp [humanize, jsonErrResp] at h
  | some data =>
    by_cases ht : truthy data = true
    · cases hg : getText data with
      | error m => simp [humanize, ht, hg] at h
      | ok s =>
        by_cases he : pyStrip s = ""
        · simp [humanize, ht, hg, he, textErrResp] at h
        · by_cases hl : 10000 < (pyStrip s).length
          · simp [humanize, ht, hg, he, hl, lenErrResp] at h
          · exact ⟨data, s, rfl, ht, hg, he, hl, humanize_valid_eq md5 llm data c s ht hg he hl⟩
    · rw [Bool.not_eq_true] at ht
      simp [humanize, ht, jsonErrResp] at h

/-! ## Claim C1: the cache bound and FIFO eviction -/

theorem humanize_fresh_step (md5 : String → String) (llm : String → Except String String)
    (c : List (String × String)) (t : String) (h1 : pyStrip t ≠ "")
    (h2 : ¬ 10000 < (pyStrip t).length) (h3 : c.lookup (md5 (pyStrip t)) = none)
    (h4 : ∃ r, llm (pyStrip t) = .ok r) :
    (humanize md5 llm (some (.jobj [("text", .jstr t)])) c).2.1
      = insFresh c (entryOf md5 llm t) := by
  obtain ⟨r, hr⟩ := h4
  rw [humanize_text_body, if_neg h1, if_neg h2]
  have hp : humanize_text_with_deepseek llm (pyStrip t) = .ok (postProcess (pyStrip r)) := by
    unfold humanize_text_with_deepseek
    rw [hr]
    rfl
  have he : entryOf md5 llm t = (md5 (pyStrip t), postProcess (pyStrip r)) := by
    unfold entryOf
    rw [hr]
  rw [he]
  simp only [humanizeValid, h3, hp]
  exact cacheInsert_fresh h3

theorem runTexts_fresh (md5 : String → String) (llm : String → Except String String) :
    ∀ (texts : List String) (c : List (String × String)),
    c.length ≤ 100 →
    (texts.map fun t => md5 (pyStrip t)).Nodup →
    (∀ t ∈ texts, c.lookup (md5 (pyStrip t)) = none) →
    (∀ t ∈ texts, pyStrip t ≠ "" ∧ (pyStrip t).length ≤ 10000 ∧
      ∃ r, llm (pyStrip t) = .ok r) →
    runTexts md5 llm texts c = (texts.map (entryOf md5 llm)).foldl insFresh c := by
  intro texts
  induction texts with
  | nil => intro c _ _ _ _; rfl
  | cons t ts ih =>
    intro c hc hnd hfresh hvalid
    obtain ⟨hv1, hv2, hv3⟩ := hvalid t (by simp)
    have hstep := humanize_fresh_step md5 llm c t hv1 (by omega) (hfresh t (by simp)) hv3
    have hhd : runTexts md5 llm (t :: ts) c
        = runTexts md5 llm ts ((humanize md5 llm (some (.jobj [("text", .jstr t)])) c).2.1) :=
      rfl
    rw [hhd, hstep, List.map_cons, List.foldl_cons]
    have hnd' : (ts.map fun t => md5 (pyStrip t)).Nodup :=
      (List.nodup_cons.mp (by simpa using hnd)).2
    apply ih
    · exact insFresh_length_le _ hc
    · exact hnd'
    · intro t' ht'
      apply lookup_insFresh_none _ (hfresh t' (by simp [ht']))
      have hfst1 : (entryOf md5 llm t).1 = md5 (pyStrip t) := rfl
      rw [hfst1]
      intro heq
      have hni : md5 (pyStrip t) ∉ ts.map fun u => md5 (pyStrip u) :=
        (List.nodup_cons.mp (by simpa using hnd)).1
      exact hni (heq ▸ List.mem_map_of_mem _ ht')
    · intro t' ht'
      exact hvalid t' (by simp [ht'])

/-- **C1.** The response cache never exceeds 100 entries: every
completed request maps a cache of size ≤ 100 to a cache of size ≤ 100;
and 101 requests with pairwise-distinct fingerprints, starting from the
empty cache, leave exactly 100 entries with the first-inserted
fingerprint evicted (FIFO). -/
theorem cache_bound_and_fifo :
    (∀ (md5 : String → String) (llm : String → Except String String) body c,
        c.length ≤ 100 → ((humanize md5 llm body c).2.1).length ≤ 100)
  ∧ (∀ (md5 : String → String) (llm : String → Except String String) (texts : List String),
        texts.length = 101 →
        (texts.map fun t => md5 (pyStrip t)).Nodup →
        (∀ t ∈ texts, pyStrip t ≠ "" ∧ (pyStrip t).length ≤ 10000 ∧
          ∃ r, llm (pyStrip t) = .ok r) →
        (runTexts md5 llm texts []).length = 100
          ∧ md5 (pyStrip (texts.headD "")) ∉ (runTexts md5 llm texts []).map Prod.fst) := by
  constructor
  · intro md5 llm body c hc
    cases body with
    | none => simpa [humanize] using hc
    | some data =>
      by_cases ht : truthy data = true
      · cases hg : getText data with
        | error m => simpa [humanize, ht, hg] using hc
        | ok s =>
          by_cases he : pyStrip s = ""
          · simpa [humanize, ht, hg, he] using hc
          · by_cases hl : 10000 < (pyStrip s).length
            · simpa [humanize, ht, hg, he, hl] using hc
            · rw [humanize_valid_eq md5 llm data c s ht hg he hl]
              cases hlk : c.lookup (md5 (pyStrip s)) with
              | some v => simpa [humanizeValid, hlk] using hc
              | none =>
                cases hp : humanize_text_with_deepseek llm (pyStrip s) with
                | error m => simpa [humanizeValid, hlk, hp] using hc
                | ok v =>
                  simp only [humanizeValid, hlk, hp]
                  exact cacheInsert_length_le hc
      · rw [Bool.not_eq_true] at ht
        simpa [humanize, ht] using hc
  · intro md5 llm texts hlen hnd hvalid
    have hrun : runTexts md5 llm texts [] = (texts.map (entryOf md5 llm)).foldl insFresh [] :=
      runTexts_fresh md5 llm texts [] (by simp) hnd (fun t _ => rfl) hvalid
    have hfold := foldl_insFresh (texts.map (entryOf md5 llm)) [] (by simp)
    have hlen' : (texts.map (entryOf md5 llm)).length = 101 := by
      rw [List.length_map, hlen]
    have hidx : ([] : List (String × String)).length
        + (texts.map (entryOf md5 llm)).length - 100 = 1 := by
      rw [hlen']
      rfl
    rw [hrun, hfold, hidx, List.nil_append]
    obtain ⟨t0, ts, rfl⟩ : ∃ t0 ts, texts = t0 :: ts := by
      cases texts with
      | nil => simp at hlen
      | cons a b => exact ⟨a, b, rfl⟩
    constructor
    · rw [List.length_drop, hlen']
    · rw [List.map_cons, List.drop_succ_cons, List.drop_zero]
      have hfst : (ts.map (entryOf md5 llm)).map Prod.fst
          = ts.map (fun t => md5 (pyStrip t)) := by
        rw [List.map_map]
        rfl
      rw [hfst]
      have hni : md5 (pyStrip t0) ∉ ts.map fun u => md5 (pyStrip u) :=
        (List.nodup_cons.mp (by simpa using hnd)).1
      simpa using hni

theorem cache_bound_and_fifo_witness :
    ((humanize id (fun s => .ok s) (some (.jobj [("text", .jstr "hi")])) []).2.1).length ≤ 100
  ∧ (runTexts id (fun s => .ok s) w101 []).length = 100
  ∧ id (pyStrip (w101.headD "")) ∉ (runTexts id (fun s => .ok s) w101 []).map Prod.fst := by
  have hv : ∀ t ∈ w101, pyStrip t ≠ "" ∧ (pyStrip t).length ≤ 10000 := by decide
  have h2 := cache_bound_and_fifo.2 id (fun s => .ok s) w101 (by decide) (by decide)
    (fun t ht => ⟨(hv t ht).1, (hv t ht).2, ⟨pyStrip t, rfl⟩⟩)
  exact ⟨cache_bound_and_fifo.1 id (fun s => .ok s) _ [] (by decide), h2.1, h2.2⟩

/-! ## Claims C3 – C10 -/

/-- **C3.** For identical input text submitted twice to `/humanize`, the
second call returns the same rewritten text as the first and performs
zero provider invocations (cache-hit path). -/
theorem second_call_uses_cache (md5 : String → String) (llm : String → Except String String)
    (body : Option JVal) (c : List (String × String))
    (h : (humanize md5 llm body c).1.success = true) :
    (humanize md5 llm body (humanize md5 llm body c).2.1).1.humanized_text
        = (humanize md5 llm body c).1.humanized_text
      ∧ (humanize md5 llm body (humanize md5 llm body c).2.1).2.2 = 0 := by
  obtain ⟨data, s, hb, ht, hg, h1, h2, heq⟩ := success_cases md5 llm body c h
  subst hb
  rw [heq, humanize_valid_eq md5 llm data _ s ht hg h1 h2]
  cases hc : c.lookup (md5 (pyStrip s)) with
  | some v => simp [humanizeValid, hc]
  | none =>
    cases hp : humanize_text_with_deepseek llm (pyStrip s) with
    | error m =>
      rw [heq] at h
      simp [humanizeValid, hc, hp] at h
    | ok v =>
      have hlk : (cacheInsert c (md5 (pyStrip s)) v).lookup (md5 (pyStrip s)) = some v := by
        rw [cacheInsert_fresh hc]
        exact lookup_insFresh_self hc
      simp [humanizeValid, hc, hp, hlk]

theorem second_call_uses_cache_witness :
    (humanize (fun _ => "k") (fun s => .ok s) (some (.jobj [("text", .jstr "x")]))
        ((humanize (fun _ => "k") (fun s => .ok s) (some (.jobj [("text", .jstr "x")]))
          [("k", "v")]).2.1)).1.humanized_text
      = (humanize (fun _ => "k") (fun s => .ok s) (some (.jobj [("text", .jstr "x")]))
          [("k", "v")]).1.humanized_text
    ∧ (humanize (fun _ => "k") (fun s => .ok s) (some (.jobj [("text", .jstr "x")]))
        ((humanize (fun _ => "k") (fun s => .ok s) (some (.jobj [("text", .jstr "x")]))
          [("k", "v")]).2.1)).2.2 = 0 :=
  second_call_uses_cache (fun _ => "k") (fun s => .ok s)
    (some (.jobj [("text", .jstr "x")])) [("k", "v")] (by decide)

/-- **C4 (amended).** When the provider call raises an exception with
message `m`, the response has `success = false`, status 500 and an
`error` field equal to `m` (non-empty exactly when the exception's
string form is), and the cache is left unchanged. -/
theorem provider_error_amended (md5 : String → String) (llm : String → Except String String)
    (c : List (String × String)) (s m : String) (h1 : pyStrip s ≠ "")
    (h2 : ¬ 10000 < (pyStrip s).length) (h3 : c.lookup (md5 (pyStrip s)) = none)
    (h4 : llm (pyStrip s) = .error m) :
    humanize md5 llm (some (.jobj [("text", .jstr s)])) c
      = ({ status := 500, success := false, error := some m }, c, 1) := by
  rw [humanize_valid_eq md5 llm _ c s (by rfl) (by simp [getText]) h1 h2]
  have hp : humanize_text_with_deepseek llm (pyStrip s) = .error m := by
    unfold humanize_text_with_deepseek
    rw [h4]
    rfl
  simp [humanizeValid, h3, hp]

theorem provider_error_amended_witness :
    humanize id (fun _ => .error "boom") (some (.jobj [("text", .jstr "hi")])) []
      = ({ status := 500, success := false, error := some "boom" }, [], 1) :=
  provider_error_amended id (fun _ => .error "boom") [] "hi" "boom"
    (by decide) (by decide) rfl rfl

/-- **C4 (counterexample to the claim as stated).** An exception whose
string form is empty (as for Python's `Exception()`) produces an empty
`error` field, so the "non-empty error field" part of the claim fails. -/
theorem provider_error_counterexample :
    (humanize id (fun _ => .error "") (some (.jobj [("text", .jstr "hi")])) []).1.status = 500
  ∧ (humanize id (fun _ => .error "") (some (.jobj [("text", .jstr "hi")])) []).1.success = false
  ∧ (humanize id (fun _ => .error "") (some (.jobj [("text", .jstr "hi")])) []).1.error
      = some "" := by
  refine ⟨?_, ?_, ?_⟩ <;> rfl

/-- **C5 (amended).** Every request whose text field, *after stripping
leading/trailing whitespace*, is longer than 10,000 characters is
rejected with status 400 and the length-limit message, the provider is
not invoked, and the cache is unchanged. -/
theorem length_check_amended (md5 : String → String) (llm : String → Except String String)
    (c : List (String × String)) (s : String) (h : 10000 < (pyStrip s).length) :
    humanize md5 llm (some (.jobj [("text", .jstr s)])) c = (lenErrResp, c, 0) := by
  have h1 : pyStrip s ≠ "" := by
    intro he
    rw [he] at h
    exact absurd h (by decide)
  rw [humanize_text_body, if_neg h1, if_pos h]

theorem length_check_amended_witness :
    humanize id (fun s => .ok s) (some (.jobj [("text", .jstr longB)])) []
      = (lenErrResp, [], 0) := by
  have hw : ∀ c ∈ List.replicate 10001 'b', wsChar c = false := by
    intro c hc
    rw [List.eq_of_mem_replicate hc]
    rfl
  have hs : pyStrip longB = longB := by
    show String.mk (pyStripL (List.replicate 10001 'b')) = longB
    rw [pyStripL_no_ws hw]
    rfl
  refine length_check_amended id (fun s => .ok s) [] longB ?_
  rw [hs]
  show 10000 < (List.replicate 10001 'b').length
  rw [List.length_replicate]
  omega

/-- **C5 (counterexample to the claim as stated).** A text field of
10,001 characters whose stripped form is the single character `a` is
*not* rejected: the length check of line 199 runs on the stripped text,
so the request succeeds with status 200. -/
theorem length_check_counterexample :
    longPad.length = 10001
  ∧ (humanize id (fun s => .ok s) (some (.jobj [("text", .jstr longPad)])) []).1.status = 200
  ∧ (humanize id (fun s => .ok s) (some (.jobj [("text", .jstr longPad)])) []).1.success
      = true := by
  have hs : pyStrip longPad = "a" := by
    show String.mk (pyStripL ('a' :: List.replicate 10000 ' ')) = "a"
    have hsplit : ('a' :: List.replicate 10000 ' ') = ['a'] ++ List.replicate 10000 ' ' := rfl
    rw [hsplit, pyStripL_append_ws_right]
    · rfl
    · intro c hc
      rw [List.eq_of_mem_replicate hc]
      rfl
  have hred : humanize id (fun s => .ok s) (some (.jobj [("text", .jstr longPad)])) []
      = humanizeValid id (fun s => .ok s) "a" [] := by
    rw [humanize_text_body, hs]
    rfl
  refine ⟨?_, ?_, ?_⟩
  · show (String.mk _).length = 10001
    rw [String.length_mk, List.length_cons, List.length_replicate]
  · rw [hred]
    rfl
  · rw [hred]
    rfl

/-- **C6.** A missing or non-JSON body yields 400 "No JSON data
provided"; an empty or whitespace-only text field yields 400 "No text
provided"; in both cases the cache is unchanged and the provider is not
invoked. -/
theorem validation_rejections :
    (∀ (md5 : String → String) (llm : String → Except String String) c,
      humanize md5 llm none c = (jsonErrResp, c, 0))
  ∧ (∀ (md5 : String → String) (llm : String → Except String String) c (s : String),
      (∀ ch ∈ s.data, wsChar ch = true) →
      humanize md5 llm (some (.jobj [("text", .jstr s)])) c = (textErrResp, c, 0)) := by
  constructor
  · intro md5 llm c
    rfl
  · intro md5 llm c s h
    rw [humanize_text_body, if_pos (pyStrip_ws_all h)]

theorem validation_rejections_witness :
    humanize id (fun s => .ok s) none [] = (jsonErrResp, [], 0)
  ∧ humanize id (fun s => .ok s) (some (.jobj [("text", .jstr " \t")])) [("a", "b")]
      = (textErrResp, [("a", "b")], 0) :=
  ⟨validation_rejections.1 id (fun s => .ok s) [],
   validation_rejections.2 id (fun s => .ok s) [("a", "b")] " \t" (by decide)⟩

/-- **C7.** Every successful `/humanize` response reports
`cached = true`: the flag is computed after insertion on the miss path,
so it is `true` on both the hit and the miss path. -/
theorem success_reports_cached (md5 : String → String) (llm : String → Except String String)
    (body : Option JVal) (c : List (String × String))
    (h : (humanize md5 llm body c).1.success = true) :
    (humanize md5 llm body c).1.cached = some true := by
  obtain ⟨data, s, hb, ht, hg, h1, h2, heq⟩ := success_cases md5 llm body c h
  rw [heq] at h ⊢
  cases hc : c.lookup (md5 (pyStrip s)) with
  | some v => simp [humanizeValid, hc]
  | none =>
    cases hp : humanize_text_with_deepseek llm (pyStrip s) with
    | error m => simp [humanizeValid, hc, hp] at h
    | ok v =>
      have hlk : (cacheInsert c (md5 (pyStrip s)) v).lookup (md5 (pyStrip s)) = some v := by
        rw [cacheInsert_fresh hc]
        exact lookup_insFresh_self hc
      simp [humanizeValid, hc, hp, hlk]

theorem success_reports_cached_witness :
    (humanize (fun _ => "k") (fun s => .ok s) (some (.jobj [("text", .jstr "x")]))
      [("k", "v")]).1.cached = some true :=
  success_reports_cached (fun _ => "k") (fun s => .ok s)
    (some (.jobj [("text", .jstr "x")])) [("k", "v")] (by decide)

/-- **C8.** A cache hit does not modify the cache: on the hit path the
returned cache is exactly the input cache and the provider is not
invoked. -/
theorem cache_hit_frame (md5 : String → String) (llm : String → Except String String)
    (c : List (String × String)) (s v : String) (h1 : pyStrip s ≠ "")
    (h2 : ¬ 10000 < (pyStrip s).length) (hhit : c.lookup (md5 (pyStrip s)) = some v) :
    humanize md5 llm (some (.jobj [("text", .jstr s)])) c
      = ({ status := 200, success := true, humanized_text := some v,
           original_length := some (pyStrip s).length, humanized_length := some v.length,
           cached := some true }, c, 0) := by
  rw [humanize_valid_eq md5 llm _ c s (by rfl) (by simp [getText]) h1 h2]
  simp [humanizeValid, hhit]

theorem cache_hit_frame_witness :
    humanize (fun _ => "k") (fun s => .ok s) (some (.jobj [("text", .jstr "x")])) [("k", "v")]
      = ({ status := 200, success := true, humanized_text := some "v",
           original_length := some (pyStrip "x").length, humanized_length := some "v".length,
           cached := some true }, [("k", "v")], 0) :=
  cache_hit_frame (fun _ => "k") (fun s => .ok s) [("k", "v")] "x" "v"
    (by decide) (by decide) (by decide)

/-- **C9.** Requests whose text fields differ only in leading/trailing
whitespace are indistinguishable: the handler's entire result (response
payload, cache, provider-call count) is identical, since the text is
stripped before validation, fingerprinting and the provider call. -/
theorem padding_invariance (md5 : String → String) (llm : String → Except String String)
    (c : List (String × String)) (s w1 w2 : String)
    (h1 : ∀ ch ∈ w1.data, wsChar ch = true) (h2 : ∀ ch ∈ w2.data, wsChar ch = true) :
    humanize md5 llm (some (.jobj [("text", .jstr (w1 ++ s ++ w2))])) c
      = humanize md5 llm (some (.jobj [("text", .jstr s)])) c := by
  rw [humanize_text_body, humanize_text_body, pyStrip_pad h1 h2]

theorem padding_invariance_witness :
    humanize id (fun s => .ok s) (some (.jobj [("text", .jstr (" " ++ "hi" ++ "\n"))])) []
      = humanize id (fun s => .ok s) (some (.jobj [("text", .jstr "hi")])) [] :=
  padding_invariance id (fun s => .ok s) [] "hi" " " "\n" (by decide) (by decide)

/-- **C10.** A syntactically valid JSON body parsing to a Python-falsy
value (`{}`, `[]`, `0`, `false`, `null`) is rejected with 400 and
"No JSON data provided" (not "No text provided"): line 183 tests the
parsed body for truthiness. -/
theorem falsy_body_rejected (md5 : String → String) (llm : String → Except String String)
    (c : List (String × String)) (v : JVal) (h : truthy v = false) :
    humanize md5 llm (some v) c = (jsonErrResp, c, 0) := by
  simp [humanize, h]

theorem falsy_body_rejected_witness :
    humanize id (fun s => .ok s) (some (.jobj [])) [] = (jsonErrResp, [], 0)
  ∧ humanize id (fun s => .ok s) (some (.jarr [])) [] = (jsonErrResp, [], 0)
  ∧ humanize id (fun s => .ok s) (some (.jnum 0)) [] = (jsonErrResp, [], 0)
  ∧ humanize id (fun s => .ok s) (some (.jbool false)) [] = (jsonErrResp, [], 0)
  ∧ humanize id (fun s => .ok s) (some .jnull) [] = (jsonErrResp, [], 0) :=
  ⟨falsy_body_rejected id (fun s => .ok s) [] (.jobj []) (by rfl),
   falsy_body_rejected id (fun s => .ok s) [] (.jarr []) (by rfl),
   falsy_body_rejected id (fun s => .ok s) [] (.jnum 0) (by decide),
   falsy_body_rejected id (fun s => .ok s) [] (.jbool false) (by rfl),
   falsy_body_rejected id (fun s => .ok s) [] .jnull (by rfl)⟩

/-! ## The post-processor: claim C2 -/

theorem subScan_nil (needB : Bool) (pats : List (List Char)) (n : Nat) (repl : List Char)
    (b : Bool) : subScan needB pats n repl b [] = [] := by
  rw [subScan]

theorem subScan_cons (needB : Bool) (pats : List (List Char)) (n : Nat) (repl : List Char)
    (atB : Bool) (c : Char) (rest : List Char) :
    subScan needB pats n repl atB (c :: rest)
      = if (atB || !needB) && pats.any (fun p => matchesW p (c :: rest)) then
          repl ++ subScan needB pats n repl false (rest.drop n)
        else c :: subScan needB pats n repl (!wordChar c) rest := by
  rw [subScan]

theorem subScanC_eq (needB : Bool) (pats : List (List Char)) (n : Nat) (repl : List Char) :
    ∀ (l : List Char) (k : Nat) (b : Bool),
    subScanC needB pats n repl k b l
      = subScan needB pats n repl (if k = 0 then b else false) (l.drop k) := by
  intro l
  induction l with
  | nil =>
    intro k b
    rw [List.drop_nil, subScan_nil]
    cases k <;> rfl
  | cons c rest ih =>
    intro k b
    cases k with
    | zero =>
      have e2 : (if (0 : Nat) = 0 then b else false) = b := if_pos rfl
      rw [e2, List.drop_zero, subScan_cons]
      show (if (b || !needB) && pats.any (fun p => matchesW p (c :: rest)) then
              repl ++ subScanC needB pats n repl n false rest
            else c :: subScanC needB pats n repl 0 (!wordChar c) rest) = _
      rw [ih n false, ih 0 (!wordChar c), ite_self, if_pos rfl, List.drop_zero]
    | succ k =>
      have e3 : (if k + 1 = 0 then b else false) = false := if_neg (by omega)
      rw [e3, List.drop_succ_cons]
      show subScanC needB pats n repl k false rest = _
      rw [ih k false, ite_self]

theorem postProcessL_eq_C (l : List Char) : postProcessL l = postProcessLC l := by
  unfold postProcessL postProcessLC mwSub fpSub wmiSub
  rw [subScanC_eq, subScanC_eq, subScanC_eq]
  simp

theorem matchesW_nil {p : List Char} (hp : p ≠ []) : matchesW p [] = false := by
  unfold matchesW
  cases p with
  | nil => exact absurd rfl hp
  | cons x p' =>
    rw [List.take_nil]
    simp

theorem matchesW_cons {x c : Char} {p l : List Char} :
    matchesW (x :: p) (c :: l) = (decide (c = x) && matchesW p l) := by
  unfold matchesW
  rw [List.length_cons, List.take_succ_cons, List.drop_succ_cons]
  by_cases hcx : c = x
  · by_cases ht : l.take p.length = p <;> simp [hcx, ht]
  · simp [hcx]

theorem matchesW_empty_pat (l : List Char) : matchesW [] l = boundaryOk l := by
  unfold matchesW
  simp

/-- Core mismatch lemma: if `spanOk p z` holds and the continuation `X`
starts at a word boundary, the pattern `p` cannot match at the front of
`z ++ X`. -/
theorem matchesW_append_of_spanOk {p z X : List Char}
    (hs : spanOk p z = true) (hX : boundaryOk X = true) :
    matchesW p (z ++ X) = false := by
  unfold spanOk at hs
  by_cases hzp : z.length ≤ p.length
  · rw [if_pos hzp] at hs
    by_cases hpz : p.take z.length = z
    · cases hd : p.drop z.length with
      | nil => rw [hd] at hs; simp [hpz] at hs
      | cons ch tl =>
        rw [hd, decide_eq_true hpz] at hs
        simp only [Bool.not_true, Bool.false_or] at hs
        have hA : ¬((z ++ X).take p.length = p) := by
          intro hEq
          rw [List.take_append_eq_append_take, List.take_of_length_le hzp] at hEq
          have hdrop : X.take (p.length - z.length) = p.drop z.length := by
            have h2 := congrArg (List.drop z.length) hEq
            rwa [List.drop_left] at h2
          rw [hd] at hdrop
          cases X with
          | nil => rw [List.take_nil] at hdrop; exact List.noConfusion hdrop
          | cons x xs =>
            have hx : x = ch := by
              cases hk : p.length - z.length with
              | zero => rw [hk] at hdrop; exact absurd hdrop (by simp)
              | succ k' =>
                rw [hk, List.take_succ_cons] at hdrop
                injection hdrop
            have hb : boundaryOk (x :: xs) = false := by
              show (!wordChar x) = false
              rw [hx, hs]
              rfl
            rw [hb] at hX
            exact Bool.noConfusion hX
        unfold matchesW
        rw [decide_eq_false hA]
        rfl
    · have hA : ¬((z ++ X).take p.length = p) := by
        intro hEq
        apply hpz
        have h2 := congrArg (List.take z.length) hEq
        rw [List.take_take, Nat.min_eq_left hzp, List.take_left] at h2
        exact h2.symm
      unfold matchesW
      rw [decide_eq_false hA]
      rfl
  · rw [if_neg hzp] at hs
    have hplt : p.length < z.length := by omega
    unfold matchesW
    rw [List.take_append_of_le_length (Nat.le_of_lt hplt),
      List.drop_append_of_le_length (Nat.le_of_lt hplt)]
    by_cases hpz : z.take p.length = p
    · cases hd : z.drop p.length with
      | nil =>
        have h2 := congrArg List.length hd
        rw [List.length_drop] at h2
        simp at h2
        omega
      | cons ch tl =>
        rw [hd, decide_eq_true hpz] at hs
        simp only [Bool.not_true, Bool.false_or] at hs
        rw [List.cons_append]
        have hb : boundaryOk (ch :: (tl ++ X)) = false := by
          show (!wordChar ch) = false
          rw [hs]
          rfl
        rw [hb, Bool.and_false]
    · rw [decide_eq_false hpz]
      rfl

theorem hasOccScan_cons (needB : Bool) (pats : List (List Char)) (atB : Bool) (c : Char)
    (rest : List Char) :
    hasOccScan needB pats atB (c :: rest)
      = (((atB || !needB) && pats.any (fun p => matchesW p (c :: rest))) ||
          hasOccScan needB pats (!wordChar c) rest) := rfl

/-- Scanning across an inserted replacement block `R`: no pattern can
match at any position inside `R` (given `spanOk` for every suffix of `R`
and a boundary-starting continuation), so the scan continues into `X`
with the flag determined by `R`'s last character. -/
theorem hasOccScan_append_repl (needB : Bool) (pats : List (List Char)) :
    ∀ (R : List Char), R ≠ [] →
    (∀ j, j < R.length → ∀ p ∈ pats, spanOk p (R.drop j) = true) →
    ∀ (X : List Char), boundaryOk X = true → ∀ b,
    hasOccScan needB pats b (R ++ X) = hasOccScan needB pats (lastFlag R) X := by
  intro R
  induction R with
  | nil => intro hR; exact absurd rfl hR
  | cons r R' ih =>
    intro _ hspan X hX b
    have hany : (pats.any fun p => matchesW p ((r :: R') ++ X)) = false := by
      rw [List.any_eq_false]
      intro p hp
      simpa using matchesW_append_of_spanOk (hspan 0 (by simp) p hp) hX
    rw [List.cons_append, hasOccScan_cons, ← List.cons_append, hany, Bool.and_false,
      Bool.false_or]
    cases R' with
    | nil => rfl
    | cons r2 R'' =>
      rw [ih (by simp) (fun j hj p hp => hspan (j + 1) (by simpa using hj) p hp) X hX
        (!wordChar r)]
      rfl

theorem subScan_boundary_true (needB : Bool) (pats : List (List Char)) (n : Nat)
    (repl : List Char) (hpats : ∀ p ∈ pats, boundaryOk p = false) :
    ∀ b l, boundaryOk l = true → boundaryOk (subScan needB pats n repl b l) = true := by
  intro b l hl
  cases l with
  | nil => rw [subScan_nil]; rfl
  | cons c rest =>
    rw [subScan_cons]
    have hany : (pats.any fun p => matchesW p (c :: rest)) = false := by
      rw [List.any_eq_false]
      intro p hp
      have hpb := hpats p hp
      cases p with
      | nil => exact absurd hpb (by simp [boundaryOk])
      | cons x p' =>
        rw [matchesW_cons]
        have hcx : decide (c = x) = false := by
          apply decide_eq_false
          intro hEq
          have hwx : wordChar x = true := by
            have : (!wordChar x) = false := hpb
            simpa using this
          have hwc : wordChar c = false := by
            have : (!wordChar c) = true := hl
            simpa using this
          rw [hEq, hwx] at hwc
          exact Bool.noConfusion hwc
        rw [hcx, Bool.false_and]
        simp
    rw [hany, Bool.and_false, if_neg (by simp)]
    exact hl

theorem subScan_boundary_false (needB : Bool) (pats : List (List Char)) (n : Nat)
    (repl : List Char) (hrepl : boundaryOk repl = false) :
    ∀ b l, boundaryOk l = false → boundaryOk (subScan needB pats n repl b l) = false := by
  intro b l hl
  cases l with
  | nil => exact absurd hl (by simp [boundaryOk])
  | cons c rest =>
    rw [subScan_cons]
    split
    · cases repl with
      | nil => exact absurd hrepl (by simp [boundaryOk])
      | cons r rs =>
        rw [List.cons_append]
        exact hrepl
    · exact hl

/-- Failure transfer: if a pattern suffix `p` fails to match at the
front of `l`, it also fails at the front of the scanner's output on
`l`. -/
theorem matchesW_subScan_transfer (needB : Bool) (pats : List (List Char)) (n : Nat)
    (repl : List Char) (qs : List (List Char))
    (hpats : ∀ p ∈ pats, boundaryOk p = false)
    (hrepl : boundaryOk repl = false)
    (hlen : ∀ p ∈ pats, p.length = n + 1)
    (hspan : ∀ q ∈ qs, ∀ k, k < q.length → spanOk (q.drop k) repl = true) :
    ∀ p, suffOf qs p → ∀ b l, matchesW p l = false →
      matchesW p (subScan needB pats n repl b l) = false := by
  intro p
  induction p with
  | nil =>
    intro _ b l hml
    rw [matchesW_empty_pat] at hml ⊢
    exact subScan_boundary_false needB pats n repl hrepl b l hml
  | cons x p' ih =>
    intro hsuff b l hml
    cases l with
    | nil => rw [subScan_nil]; exact hml
    | cons c rest =>
      rw [subScan_cons]
      split
      · rename_i hcond
        have hX : boundaryOk (subScan needB pats n repl false (rest.drop n)) = true := by
          rw [Bool.and_eq_true] at hcond
          obtain ⟨q, hq, hmq⟩ := List.any_eq_true.mp hcond.2
          unfold matchesW at hmq
          rw [Bool.and_eq_true] at hmq
          have hb := hmq.2
          rw [hlen q hq, List.drop_succ_cons] at hb
          exact subScan_boundary_true needB pats n repl hpats false _ hb
        have hsp : spanOk (x :: p') repl = true := by
          obtain ⟨q, hq, k, hk⟩ := hsuff
          have hklt : k < q.length := by
            by_contra hge
            have hnil : q.drop k = [] := List.drop_eq_nil_of_le (by omega)
            rw [hnil] at hk
            exact List.noConfusion hk
          rw [← hk]
          exact hspan q hq k hklt
        exact matchesW_append_of_spanOk hsp hX
      · rw [matchesW_cons]
        by_cases hcx : c = x
        · have hml' : matchesW p' rest = false := by
            rw [matchesW_cons, decide_eq_true hcx, Bool.true_and] at hml
            exact hml
          have hsuff' : suffOf qs p' := by
            obtain ⟨q, hq, k, hk⟩ := hsuff
            refine ⟨q, hq, k + 1, ?_⟩
            have h2 : q.drop (k + 1) = (q.drop k).drop 1 := by
              rw [List.drop_drop]
            rw [h2, hk, List.drop_one]
            rfl
          rw [ih hsuff' (!wordChar c) rest hml', Bool.and_false]
        · rw [decide_eq_false hcx, Bool.false_and]

theorem hasOccScan_false_of_false (needB : Bool) (pats : List (List Char)) :
    ∀ l b, hasOccScan needB pats b l = false → hasOccScan needB pats false l = false := by
  intro l
  induction l with
  | nil => intro b h; rfl
  | cons c rest ih =>
    intro b h
    rw [hasOccScan_cons] at h ⊢
    rw [Bool.or_eq_false_iff] at h ⊢
    refine ⟨?_, h.2⟩
    cases hany : (pats.any fun p => matchesW p (c :: rest)) with
    | false => rw [Bool.and_false]
    | true =>
      have h1 := h.1
      rw [hany, Bool.and_true, Bool.or_eq_false_iff] at h1
      rw [Bool.and_true, Bool.false_or]
      exact h1.2

theorem hasOccScan_false_drop (needB : Bool) (pats : List (List Char)) :
    ∀ (k : Nat) (l : List Char) (b : Bool), hasOccScan needB pats b l = false →
      hasOccScan needB pats false (l.drop k) = false := by
  intro k
  induction k with
  | zero =>
    intro l b h
    rw [List.drop_zero]
    exact hasOccScan_false_of_false needB pats l b h
  | succ k ihk =>
    intro l b h
    cases l with
    | nil => rfl
    | cons c rest =>
      rw [List.drop_succ_cons]
      apply ihk rest (!wordChar c)
      rw [hasOccScan_cons, Bool.or_eq_false_iff] at h
      exact h.2

/-- Main lemma for a single substitution: its own pattern has no
boundary-delimited occurrence left in the scanner's output. -/
theorem hasOccScan_subScan_clears (needB : Bool) (pats : List (List Char)) (n : Nat)
    (repl : List Char)
    (hpats : ∀ p ∈ pats, boundaryOk p = false)
    (hrepl : boundaryOk repl = false)
    (hreplne : repl ≠ [])
    (hlastw : lastFlag repl = false)
    (hlen : ∀ p ∈ pats, p.length = n + 1)
    (hspanP : ∀ q ∈ pats, ∀ k, k < q.length → spanOk (q.drop k) repl = true)
    (hspanR : ∀ j, j < repl.length → ∀ p ∈ pats, spanOk p (repl.drop j) = true) :
    ∀ l b, hasOccScan needB pats b (subScan needB pats n repl b l) = false := by
  have H : ∀ N, ∀ l : List Char, l.length ≤ N → ∀ b,
      hasOccScan needB pats b (subScan needB pats n repl b l) = false := by
    intro N
    induction N with
    | zero =>
      intro l hl b
      have : l = [] := List.eq_nil_of_length_eq_zero (by omega)
      subst this
      rw [subScan_nil]
      rfl
    | succ N ihN =>
      intro l hl b
      cases l with
      | nil => rw [subScan_nil]; rfl
      | cons c rest =>
        rw [subScan_cons]
        rw [List.length_cons] at hl
        split
        · rename_i hcond
          have hX : boundaryOk (subScan needB pats n repl false (rest.drop n)) = true := by
            rw [Bool.and_eq_true] at hcond
            obtain ⟨q, hq, hmq⟩ := List.any_eq_true.mp hcond.2
            unfold matchesW at hmq
            rw [Bool.and_eq_true] at hmq
            have hb := hmq.2
            rw [hlen q hq, List.drop_succ_cons] at hb
            exact subScan_boundary_true needB pats n repl hpats false _ hb
          rw [hasOccScan_append_repl needB pats repl hreplne hspanR _ hX b, hlastw]
          exact ihN (rest.drop n) (by rw [List.length_drop]; omega) false
        · rename_i hcond
          rw [hasOccScan_cons, Bool.or_eq_false_iff]
          constructor
          · by_cases hg : (b || !needB) = true
            · rw [hg, Bool.true_and, List.any_eq_false]
              intro p hp
              have hanyOrig : (pats.any fun p => matchesW p (c :: rest)) = false := by
                cases hao : (pats.any fun p => matchesW p (c :: rest)) with
                | false => rfl
                | true => exact absurd (by rw [hg, hao]; rfl) hcond
              have hout : subScan needB pats n repl b (c :: rest)
                  = c :: subScan needB pats n repl (!wordChar c) rest := by
                rw [subScan_cons, if_neg hcond]
              have := matchesW_subScan_transfer needB pats n repl pats hpats hrepl hlen
                hspanP p ⟨p, hp, 0, by rw [List.drop_zero]⟩ b (c :: rest)
                (by rw [List.any_eq_false] at hanyOrig; simpa using hanyOrig p hp)
              rw [hout] at this
              simpa using this
            · rw [Bool.not_eq_true] at hg
              rw [hg, Bool.false_and]
          · exact ihN rest (by omega) (!wordChar c)
  intro l b
  exact H l.length l (Nat.le_refl _) b

/-- Preservation across a different substitution: if a pattern family
has no boundary-delimited occurrence in `l`, it still has none in the
output of a scanner whose replacement cannot create one. -/
theorem hasOccScan_subScan_preserves (needBh : Bool) (patsh : List (List Char))
    (needBq : Bool) (patsq : List (List Char)) (n : Nat) (repl : List Char)
    (hpatsq : ∀ p ∈ patsq, boundaryOk p = false)
    (hrepl : boundaryOk repl = false)
    (hreplne : repl ≠ [])
    (hlastw : lastFlag repl = false)
    (hlenq : ∀ p ∈ patsq, p.length = n + 1)
    (hspanH : ∀ q ∈ patsh, ∀ k, k < q.length → spanOk (q.drop k) repl = true)
    (hspanR : ∀ j, j < repl.length → ∀ p ∈ patsh, spanOk p (repl.drop j) = true) :
    ∀ l b, hasOccScan needBh patsh b l = false →
      hasOccScan needBh patsh b (subScan needBq patsq n repl b l) = false := by
  have H : ∀ N, ∀ l : List Char, l.length ≤ N → ∀ b,
      hasOccScan needBh patsh b l = false →
      hasOccScan needBh patsh b (subScan needBq patsq n repl b l) = false := by
    intro N
    induction N with
    | zero =>
      intro l hl b h
      have : l = [] := List.eq_nil_of_length_eq_zero (by omega)
      subst this
      rw [subScan_nil]
      rfl
    | succ N ihN =>
      intro l hl b h
      cases l with
      | nil => rw [subScan_nil]; rfl
      | cons c rest =>
        rw [subScan_cons]
        rw [List.length_cons] at hl
        rw [hasOccScan_cons, Bool.or_eq_false_iff] at h
        split
        · rename_i hcond
          have hX : boundaryOk (subScan needBq patsq n repl false (rest.drop n)) = true := by
            rw [Bool.and_eq_true] at hcond
            obtain ⟨q, hq, hmq⟩ := List.any_eq_true.mp hcond.2
            unfold matchesW at hmq
            rw [Bool.and_eq_true] at hmq
            have hb := hmq.2
            rw [hlenq q hq, List.drop_succ_cons] at hb
            exact subScan_boundary_true needBq patsq n repl hpatsq false _ hb
          rw [hasOccScan_append_repl needBh patsh repl hreplne hspanR _ hX b, hlastw]
          refine ihN (rest.drop n) (by rw [List.length_drop]; omega) false ?_
          have hdrop := hasOccScan_false_drop needBh patsh n rest (!wordChar c) h.2
          exact hdrop
        · rename_i hcond
          rw [hasOccScan_cons, Bool.or_eq_false_iff]
          constructor
          · by_cases hg : (b || !needBh) = true
            · rw [hg, Bool.true_and, List.any_eq_false]
              intro p hp
              have hanyOrig : matchesW p (c :: rest) = false := by
                have h1 := h.1
                rw [hg, Bool.true_and, List.any_eq_false] at h1
                simpa using h1 p hp
              have hout : subScan needBq patsq n repl b (c :: rest)
                  = c :: subScan needBq patsq n repl (!wordChar c) rest := by
                rw [subScan_cons, if_neg hcond]
              have := matchesW_subScan_transfer needBq patsq n repl patsh hpatsq hrepl
                hlenq hspanH p ⟨p, hp, 0, by rw [List.drop_zero]⟩ b (c :: rest) hanyOrig
              rw [hout] at this
              simpa using this
            · rw [Bool.not_eq_true] at hg
              rw [hg, Bool.false_and]
          · exact ihN rest (by omega) (!wordChar c) h.2
  intro l b h
  exact H l.length l (Nat.le_refl _) b h

theorem subScan_mem (needB : Bool) (pats : List (List Char)) (n : Nat) (repl : List Char) :
    ∀ (l : List Char) (b : Bool), ∀ x ∈ subScan needB pats n repl b l, x ∈ repl ∨ x ∈ l := by
  have H : ∀ N, ∀ l : List Char, l.length ≤ N → ∀ b, ∀ x ∈ subScan needB pats n repl b l,
      x ∈ repl ∨ x ∈ l := by
    intro N
    induction N with
    | zero =>
      intro l hl b x hx
      have : l = [] := List.eq_nil_of_length_eq_zero (by omega)
      subst this
      rw [subScan_nil] at hx
      exact absurd hx (by simp)
    | succ N ihN =>
      intro l hl b x hx
      cases l with
      | nil =>
        rw [subScan_nil] at hx
        exact absurd hx (by simp)
      | cons c rest =>
        rw [List.length_cons] at hl
        rw [subScan_cons] at hx
        split at hx
        · rw [List.mem_append] at hx
          rcases hx with hx | hx
          · exact Or.inl hx
          · rcases ihN (rest.drop n) (by rw [List.length_drop]; omega) false x hx with h | h
            · exact Or.inl h
            · exact Or.inr (List.mem_cons_of_mem c (List.mem_of_mem_drop h))
        · rw [List.mem_cons] at hx
          rcases hx with hx | hx
          · exact Or.inr (by rw [hx]; exact List.mem_cons_self c rest)
          · rcases ihN rest (by omega) (!wordChar c) x hx with h | h
            · exact Or.inl h
            · exact Or.inr (List.mem_cons_of_mem c h)
  intro l b x hx
  exact H l.length l (Nat.le_refl _) b x hx

theorem dashSub_no_dash (l : List Char) : ∀ x ∈ dashSub l, ¬(x = '—' ∨ x = '–') := by
  intro x hx
  unfold dashSub at hx
  rw [List.mem_map] at hx
  obtain ⟨a, _, rfl⟩ := hx
  by_cases h1 : a = '—'
  · simp [h1]
  · by_cases h2 : a = '–'
    · simp [h1, h2]
    · simp [h1, h2]

/-- **C2 (amended).** The post-processor is a pure, total function on
strings whose output contains no em-dash or en-dash; no standalone
word-boundary occurrence of `Meanwhile` or `meanwhile` (exactly these
two casings — the regex is `[Mm]eanwhile`, not case-insensitive);
likewise none of `Flashpoint`/`flashpoint`; and no occurrence of
`which makes it` that ends at a word boundary (the trailing `\b` of the
pattern).  Other casings such as `MEANWHILE`, and occurrences of
`which makes it` running straight into a word character, may remain. -/
theorem postprocess_amended (s : String) :
    (∀ c ∈ (postProcess s).data, ¬(c = '—' ∨ c = '–'))
  ∧ hasOccScan true mwPats true (postProcess s).data = false
  ∧ hasOccScan true fpPats true (postProcess s).data = false
  ∧ hasOccScan false wmiPats true (postProcess s).data = false := by
  have hdata : (postProcess s).data = wmiSub (fpSub (mwSub (dashSub s.data))) := rfl
  rw [hdata]
  refine ⟨?_, ?_, ?_, ?_⟩
  · intro c hc
    unfold wmiSub at hc
    rcases subScan_mem false wmiPats 13 wmiRepl _ true c hc with h | h
    · have hw : ∀ x ∈ wmiRepl, ¬(x = '—' ∨ x = '–') := by decide
      exact hw c h
    · unfold fpSub at h
      rcases subScan_mem true fpPats 9 fpRepl _ true c h with h2 | h2
      · have hw : ∀ x ∈ fpRepl, ¬(x = '—' ∨ x = '–') := by decide
        exact hw c h2
      · unfold mwSub at h2
        rcases subScan_mem true mwPats 8 mwRepl _ true c h2 with h3 | h3
        · have hw : ∀ x ∈ mwRepl, ¬(x = '—' ∨ x = '–') := by decide
          exact hw c h3
        · exact dashSub_no_dash s.data c h3
  · show hasOccScan true mwPats true
      (subScan false wmiPats 13 wmiRepl true (fpSub (mwSub (dashSub s.data)))) = false
    apply hasOccScan_subScan_preserves true mwPats false wmiPats 13 wmiRepl
      (by decide) (by decide) (by decide) (by decide) (by decide) (by decide) (by decide)
    show hasOccScan true mwPats true
      (subScan true fpPats 9 fpRepl true (mwSub (dashSub s.data))) = false
    apply hasOccScan_subScan_preserves true mwPats true fpPats 9 fpRepl
      (by decide) (by decide) (by decide) (by decide) (by decide) (by decide) (by decide)
    show hasOccScan true mwPats true
      (subScan true mwPats 8 mwRepl true (dashSub s.data)) = false
    exact hasOccScan_subScan_clears true mwPats 8 mwRepl
      (by decide) (by decide) (by decide) (by decide) (by decide) (by decide) (by decide)
      (dashSub s.data) true
  · show hasOccScan true fpPats true
      (subScan false wmiPats 13 wmiRepl true (fpSub (mwSub (dashSub s.data)))) = false
    apply hasOccScan_subScan_preserves true fpPats false wmiPats 13 wmiRepl
      (by decide) (by decide) (by decide) (by decide) (by decide) (by decide) (by decide)
    show hasOccScan true fpPats true
      (subScan true fpPats 9 fpRepl true (mwSub (dashSub s.data))) = false
    exact hasOccScan_subScan_clears true fpPats 9 fpRepl
      (by decide) (by decide) (by decide) (by decide) (by decide) (by decide) (by decide)
      (mwSub (dashSub s.data)) true
  · show hasOccScan false wmiPats true
      (subScan false wmiPats 13 wmiRepl true (fpSub (mwSub (dashSub s.data)))) = false
    exact hasOccScan_subScan_clears false wmiPats 13 wmiRepl
      (by decide) (by decide) (by decide) (by decide) (by decide) (by decide) (by decide)
      (fpSub (mwSub (dashSub s.data))) true

/-- **C2 (counterexample to the claim as stated).** On the input
`"MEANWHILE which makes itwhich makes it"` the output still contains a
standalone case-insensitive `meanwhile` (the regex only covers the
`Meanwhile`/`meanwhile` casings) and still contains the substring
`which makes it` (the first, boundary-less occurrence survives and the
replacement of the second recreates the phrase's context). -/
theorem postprocess_claim_counterexample :
    hasOccCI "meanwhile".data true (postProcess ppCounterInput).data = true
  ∧ containsSub "which makes it".data (postProcess ppCounterInput).data = true := by
  have h : (postProcess ppCounterInput).data = postProcessLC ppCounterInput.data := by
    show postProcessL ppCounterInput.data = _
    exact postProcessL_eq_C _
  rw [h]
  decide

end Humanizer
